import Mathlib

/-!
Shallow embedding of AsyncWebConsole (src/src/AsyncWebConsole.cpp / .h).

Text is modelled as `List Char` (Arduino `String` / `char *` payloads).
Machine-size quantities (`size_t`, counts, indices) are modelled as `Nat`;
the code never relies on `size_t` overflow in the modelled fragments.
-/

namespace AsyncWebConsole

/-! ## LogQueue: `_enqueueRaw` (AsyncWebConsole.cpp lines 144-164)

The FreeRTOS queue `_q` is a bounded FIFO of `LogMsg` (owned `char *`).
`xQueueSend(_q, &msg, 0)` / `xQueueSendFromISR` are modelled as a single
bounded attempt with no other task running: succeed exactly when the queue
holds fewer than `cap` messages.  `freed` records whether the code called
`free(data)` on this path. -/

structure LogQueue where
  msgs : List (List Char)
  cap : Nat

/-- Model of a zero-wait `xQueueSend` / `xQueueSendFromISR`: a single bounded
attempt that succeeds iff a slot is free. -/
def xQueueSendModel (q : LogQueue) (m : List Char) : Bool × LogQueue :=
  if q.msgs.length < q.cap then (true, { q with msgs := q.msgs ++ [m] })
  else (false, q)

structure EnqResult where
  ok : Bool
  q : LogQueue
  freed : Bool

/-- `AsyncWebConsole::_enqueueRaw` (lines 144-164). `data = none` models the
`!data` null check (returns false, nothing freed).  Both the ISR branch
(`xQueueSendFromISR`) and the normal branch (`xQueueSend(_q, &msg, 0)`)
perform one non-blocking attempt; on failure the message buffer is freed. -/
def enqueueRaw (isIsr : Bool) (q : LogQueue) (data : Option (List Char)) : EnqResult :=
  match data with
  | none => ⟨false, q, false⟩
  | some d =>
    if isIsr then
      let (ok, qq) := xQueueSendModel q d
      if ok then ⟨true, qq, false⟩ else ⟨false, qq, true⟩
    else
      let (ok, qq) := xQueueSendModel q d
      if ok then ⟨true, qq, false⟩ else ⟨false, qq, true⟩

/-- Run a sequence of enqueues (each with its own context flag and payload). -/
def enqueueAll (q : LogQueue) : List (Bool × Option (List Char)) → LogQueue
  | [] => q
  | (ctx, d) :: rest => enqueueAll (enqueueRaw ctx q d).q rest

/-! ## Severity classification: `_detectEspLogLevel` (lines 669-683) and
`_allowSyslog` (lines 685-689). -/

/-- `esp_log_level_t` values in IDF numeric order:
NONE = 0, ERROR = 1, WARN = 2, INFO = 3, DEBUG = 4, VERBOSE = 5. -/
inductive EspLogLevel where
  | none | error | warn | info | debug | verbose
deriving DecidableEq, Repr

def EspLogLevel.toNat : EspLogLevel → Nat
  | .none => 0
  | .error => 1
  | .warn => 2
  | .info => 3
  | .debug => 4
  | .verbose => 5

/-- The scan loop of `_detectEspLogLevel`: `i` is the current index; the C
loop runs while `i < s.length() && i < 8`.  `E/W/I/D/V` return a level,
any other uppercase letter or `[` breaks (unknown), anything else (escape
char, digits, spaces, lowercase) keeps scanning. -/
def detectScan : List Char → Nat → EspLogLevel
  | [], _ => .none
  | c :: rest, i =>
    if 8 ≤ i then .none
    else if c = 'E' then .error
    else if c = 'W' then .warn
    else if c = 'I' then .info
    else if c = 'D' then .debug
    else if c = 'V' then .verbose
    else if ('A' ≤ c ∧ c ≤ 'Z') ∨ c = '[' then .none
    else detectScan rest (i + 1)

/-- `AsyncWebConsole::_detectEspLogLevel` (lines 669-683). -/
def detectEspLogLevel (s : List Char) : EspLogLevel :=
  detectScan s 0

/-- `AsyncWebConsole::_allowSyslog` (lines 685-689): unknown (`ESP_LOG_NONE`)
always passes; otherwise admitted iff level ≤ configured maximum. -/
def allowSyslog (syslogMaxLevel : EspLogLevel) (s : List Char) : Bool :=
  let lvl := detectEspLogLevel s
  if lvl = .none then true
  else decide (lvl.toNat ≤ syslogMaxLevel.toNat)

/-! ## RingBacklog: `pushLineToBuffer` (lines 99-120) and the snapshot read
of `sendBacklog` (lines 132-141).

`buf` models the byte array `_logbuf` as a total function (only indices
below `cap` are ever read); `head` is `_head`, `used` is `_used`, `cap` is
`_bufCap`.  `memcpy` becomes a pointwise overwrite of an index range. -/

structure Ring where
  cap : Nat
  buf : Nat → Char
  head : Nat
  used : Nat

/-- The append step of `pushLineToBuffer` (lines 115-119): write `s` at the
logical tail `(head + used) % cap`, wrapping into a second segment at the
start of the buffer when the tail wraps. -/
def ringAppend (st : Ring) (s : List Char) : Ring :=
  let sl := s.length
  let tail := (st.head + st.used) % st.cap
  let first := min sl (st.cap - tail)
  -- memcpy(_logbuf + tail, s, first)
  let buf1 := fun i =>
    if tail ≤ i ∧ i < tail + first then s.getD (i - tail) default else st.buf i
  -- if (first < sl) memcpy(_logbuf, s + first, sl - first)
  let buf2 :=
    if first < sl then
      fun i => if i < sl - first then s.getD (first + i) default else buf1 i
    else buf1
  { st with buf := buf2, used := st.used + sl }

/-- `AsyncWebConsole::pushLineToBuffer` (lines 99-120). -/
def pushLineToBuffer (st : Ring) (s : List Char) : Ring :=
  if st.cap = 0 then st
  else
    let sl := s.length
    if st.cap ≤ sl then
      -- keep tail of the line only: memcpy(_logbuf, s + (sl - cap), cap)
      { st with
        buf := fun i => if i < st.cap then s.getD (sl - st.cap + i) default else st.buf i
        head := 0
        used := st.cap }
    else
      -- ensure space exactly (evict `need` oldest bytes)
      let st1 :=
        if st.cap < st.used + sl then
          let need0 := st.used + sl - st.cap
          let need := if st.used < need0 then st.used else need0
          { st with head := (st.head + need) % st.cap, used := st.used - need }
        else st
      ringAppend st1 s

/-- The backlog window read by `sendBacklog` (lines 135-137): bytes at
`(head + i) % cap` for `i < used`, oldest to newest. -/
def snapshot (st : Ring) : List Char :=
  (List.range st.used).map fun i => st.buf ((st.head + i) % st.cap)

/-- An empty backlog of capacity `cap` with arbitrary initial bytes
(constructor: fresh `malloc`, `_head = 0`, `_used = 0`). -/
def initRing (cap : Nat) (buf0 : Nat → Char) : Ring :=
  ⟨cap, buf0, 0, 0⟩

/-- A whole sequence of `pushLineToBuffer` calls in order. -/
def pushAll (st : Ring) (pushes : List (List Char)) : Ring :=
  pushes.foldl pushLineToBuffer st

/-! ## Command tokenizer / dispatcher: `_tokenize` (lines 750-768),
`dispatch` (lines 732-746), `helpText` (lines 698-730),
`_maxArgs = 12` (AsyncWebConsole.h lines 137-141). -/

/-- `_maxArgs` from AsyncWebConsole.h (line 139). -/
def maxArgs : Nat := 12

/-- The loop body of `AsyncWebConsole::_tokenize`: `inQuote` toggles on `"`
(the quote itself is dropped), whitespace outside quotes closes the current
token (stored only while fewer than `maxOut` tokens exist), all other
characters extend the current token.  The trailing token is flushed at end
of input under the same bound. -/
def tokenizeLoop (maxOut : Nat) : List Char → Bool → List Char → List (List Char) → List (List Char)
  | [], _, cur, acc =>
    if cur ≠ [] ∧ acc.length < maxOut then acc ++ [cur] else acc
  | ch :: rest, inQuote, cur, acc =>
    if ch = '"' then tokenizeLoop maxOut rest (!inQuote) cur acc
    else if ¬inQuote ∧ (ch = ' ' ∨ ch = '\t') then
      if cur ≠ [] then
        tokenizeLoop maxOut rest inQuote []
          (if acc.length < maxOut then acc ++ [cur] else acc)
      else tokenizeLoop maxOut rest inQuote cur acc
    else tokenizeLoop maxOut rest inQuote (cur ++ [ch]) acc

/-- `AsyncWebConsole::_tokenize` (lines 750-768); the produced `argv` entries
in order (`argc` is the length of this list). -/
def tokenize (input : List Char) (maxOut : Nat) : List (List Char) :=
  tokenizeLoop maxOut input false [] []

/-- Unbounded variant of the same loop (no `n < maxOut` check), used to state
that the bounded tokenizer keeps exactly the first `maxOut` tokens. -/
def tokenizeAllLoop : List Char → Bool → List Char → List (List Char) → List (List Char)
  | [], _, cur, acc => if cur ≠ [] then acc ++ [cur] else acc
  | ch :: rest, inQuote, cur, acc =>
    if ch = '"' then tokenizeAllLoop rest (!inQuote) cur acc
    else if ¬inQuote ∧ (ch = ' ' ∨ ch = '\t') then
      if cur ≠ [] then tokenizeAllLoop rest inQuote [] (acc ++ [cur])
      else tokenizeAllLoop rest inQuote cur acc
    else tokenizeAllLoop rest inQuote (cur ++ [ch]) acc

def tokenizeAll (input : List Char) : List (List Char) :=
  tokenizeAllLoop input false [] []

/-- Arduino `isspace` characters, as used by `String::trim`. -/
def isSpaceChar (c : Char) : Bool :=
  c = ' ' ∨ c = '\t' ∨ c = '\n' ∨ c = '\x0b' ∨ c = '\x0c' ∨ c = '\r'

/-- Arduino `String::trim`: strip leading and trailing whitespace. -/
def trimString (s : List Char) : List Char :=
  ((s.dropWhile isSpaceChar).reverse.dropWhile isSpaceChar).reverse

/-- Case-insensitive character equality (`String::equalsIgnoreCase`). -/
def eqIgnoreCase (a b : List Char) : Bool :=
  a.map Char.toLower = b.map Char.toLower

/-- `CommandEntry` (AsyncWebConsole.h line 137).  `fn = none` models a null
`CmdArgHandler` (checked by `if (fn)` in `dispatch`).  The handler receives
`argc` and the token list. -/
structure CommandEntry where
  name : List Char
  args : List Char
  help : List Char
  fn : Option (Nat → List (List Char) → List Char)

/-- `AsyncWebConsole::helpText` (lines 698-730): column-aligned listing. -/
def helpText (cmds : List CommandEntry) : List Char :=
  if cmds.length = 0 then []
  else
    let wName := cmds.foldl (fun w e => max w e.name.length) 0
    let wArgs := cmds.foldl (fun w e => max w e.args.length) 0
    let rows := cmds.map (fun e =>
      "  ".data ++ e.name ++ List.replicate (wName - e.name.length) ' ' ++ [' ']
        ++ e.args ++ List.replicate (wArgs - e.args.length) ' '
        ++ (if e.help ≠ [] then "  - ".data ++ e.help else [])
        ++ ['\n'])
    "Commands:\n".data ++ rows.flatten

/-- The fixed unknown-command reply of `dispatch` (line 745). -/
def unknownCommandReply : List Char :=
  "Unknown command. Type \x27help\x27\n".data

/-- `AsyncWebConsole::dispatch` (lines 732-746), with the registry passed
explicitly (the member array `_cmds[0.._cmdCount)` in registration order).
Trims, tokenizes with `_maxArgs`, special-cases a case-sensitive `help`
first token, else first case-insensitive name match wins. -/
def dispatch (cmds : List CommandEntry) (raw : List Char) : List Char :=
  let c := trimString raw
  if c.length = 0 then []
  else
    let argv := tokenize c maxArgs
    if argv.length = 0 then []
    else if argv.headD [] = "help".data then helpText cmds
    else
      match cmds.find? (fun e => eqIgnoreCase (argv.headD []) e.name) with
      | some e =>
        match e.fn with
        | some f => f argv.length argv
        | none => unknownCommandReply
      | none => unknownCommandReply

/-! ## BroadcastBatcher: `_trimWsBatch` (lines 201-232),
`_flushWsBroadcast` (lines 234-267), `_queueWsBroadcast` (lines 269-344),
`_sendPendingWsDrop` (lines 346-354).

The relevant `Config` fields are `wsBatchMaxBytes` and `wsFlushIntervalMs`.
The transport is an environment: `count` is the value `_ws.count()` returns
during a call, and each `_ws.availableForWriteAll()` call consumes the next
answer from an oracle list (`false` when exhausted).  Every `_ws.textAll`
call is recorded in a trace, tagged with the source-code site it came from.
`String::concat` growth is modelled as always succeeding (allocation
failure is out of scope of the embedding). -/

/-- First index of `'\n'` in a list: `String::indexOf('\n', from)` applied
to the suffix starting at `from` (`none` models the `-1` return). -/
def findNl : List Char → Option Nat
  | [] => none
  | c :: rest => if c = '\n' then some 0 else (findNl rest).map (· + 1)

/-- The `while` loop of `_trimWsBatch` (lines 210-220).  Returns `some r`
with the final `removeUpTo` when the loop finishes normally (break on
`segment >= remaining` or the loop condition turning false), `none` for
the `indexOf < 0` early return that clears the batch without a notice.
`fuel` makes the recursion structural; each iteration strictly decreases
`remaining`, so `fuel = remaining` at the entry point is enough and the
`fuel = 0, remaining > 0` branch is unreachable from `trimLoop`. -/
def trimLoopGo (b : List Char) : Nat → Nat → Nat → Option Nat
  | fuel, remaining, removeUpTo =>
    if remaining = 0 ∨ b.length ≤ removeUpTo then some removeUpTo
    else
      match fuel with
      | 0 => some removeUpTo
      | fuel + 1 =>
        match findNl (b.drop removeUpTo) with
        | none => none
        | some rel =>
          -- segment = newlinePos + 1 - removeUpTo = rel + 1
          if remaining ≤ rel + 1 then some (removeUpTo + rel + 1)
          else trimLoopGo b fuel (remaining - (rel + 1)) (removeUpTo + rel + 1)

def trimLoop (b : List Char) (remaining removeUpTo : Nat) : Option Nat :=
  trimLoopGo b remaining remaining removeUpTo

/-- `AsyncWebConsole::_trimWsBatch` (lines 201-232).  Returns the new batch
and `some k` when the notice path ran (lines 222-228) with `k` the number
of dropped bytes written into `_wsDropMessage`; `none` when the pending
notice state is left untouched. -/
def trimWsBatch (b : List Char) (dropBytes : Nat) : List Char × Option Nat :=
  if b.length = 0 ∨ dropBytes = 0 then (b, none)
  else if b.length ≤ dropBytes then ([], none)
  else
    match trimLoop b dropBytes 0 with
    | none => ([], none)
    | some removeUpTo =>
      (if b.length ≤ removeUpTo then [] else b.drop removeUpTo, some removeUpTo)

/-- The text `_trimWsBatch` stores in `_wsDropMessage` (lines 224-227). -/
def dropNoticeOf (n : Nat) : List Char :=
  "[AsyncWebConsole] WS batch overflow, dropped ".data ++ (toString n).data
    ++ " bytes\n".data

structure BState where
  wsBatch : List Char
  lastWsFlushMs : Nat
  wsDropPending : Bool
  wsDropMessage : List Char

def initBState : BState := ⟨[], 0, false, []⟩

/-- Tag recording which `textAll` site produced a trace entry:
`immediate` = lines 287 / 297 (`_queueWsBroadcast` immediate-send paths and
its `wsBatchMaxBytes == 0` direct send, line 306), `batchSend` = line 264
(`_flushWsBroadcast`), `notice` = line 350 (`_sendPendingWsDrop`). -/
inductive SendTag where
  | immediate | batchSend | notice
deriving DecidableEq, Repr

structure Sent where
  tag : SendTag
  payload : List Char
deriving DecidableEq, Repr

/-- Oracle of `availableForWriteAll()` answers; one is consumed per call. -/
abbrev Oracle := List Bool

def nextAvail (o : Oracle) : Bool × Oracle := (o.headD false, o.tail)

/-- `AsyncWebConsole::_sendPendingWsDrop` (lines 346-354). -/
def sendPendingWsDrop (st : BState) (now : Nat) (o : Oracle) :
    BState × Oracle × List Sent :=
  if ¬st.wsDropPending ∨ st.wsDropMessage.length = 0 then (st, o, [])
  else
    let (av, o1) := nextAvail o
    if av then
      ({ st with wsDropPending := false, wsDropMessage := [], lastWsFlushMs := now },
       o1, [⟨.notice, st.wsDropMessage⟩])
    else (st, o1, [])

/-- Batching configuration: `wsBatchMaxBytes` and `wsFlushIntervalMs`
(AsyncWebConsole.h lines 34-35). -/
structure WsCfg where
  wsBatchMaxBytes : Nat
  wsFlushIntervalMs : Nat

/-- `uint32_t` wraparound subtraction `now - _lastWsFlushMs`. -/
def u32sub (a b : Nat) : Nat := (a % 2 ^ 32 + 2 ^ 32 - b % 2 ^ 32) % 2 ^ 32

/-- `AsyncWebConsole::_flushWsBroadcast` (lines 234-267). -/
def flushWsBroadcast (cfg : WsCfg) (count : Nat) (st : BState) (force : Bool)
    (now : Nat) (o : Oracle) : BState × Oracle × List Sent :=
  if st.wsBatch.length = 0 then (st, o, [])
  else if count = 0 then ({ st with wsBatch := [] }, o, [])
  else
    let st := if st.lastWsFlushMs = 0 then { st with lastWsFlushMs := now } else st
    let shouldFlush := force ∨ cfg.wsFlushIntervalMs = 0
      ∨ cfg.wsFlushIntervalMs ≤ u32sub now st.lastWsFlushMs
      ∨ cfg.wsBatchMaxBytes ≤ st.wsBatch.length
    if shouldFlush then
      let (st1, o1, t1) := sendPendingWsDrop st now o
      let (av, o2) := nextAvail o1
      if av then
        ({ st1 with wsBatch := [], lastWsFlushMs := now }, o2,
         t1 ++ [⟨.batchSend, st1.wsBatch⟩])
      else (st1, o2, t1)
    else sendPendingWsDrop st now o

/-- The overflow-handling block of `_queueWsBroadcast` (lines 314-330).
The mutable locals of the C code are threaded through the result tuple:
new batch state, possibly truncated `src` (lines 322-325 truncate it to
its trailing `wsBatchMaxBytes` bytes), remaining oracle, and the sends of
the conditional flush at line 316. -/
def queueWsOverflow (cfg : WsCfg) (count : Nat) (st : BState) (src : List Char)
    (canSendNow : Bool) (now : Nat) (o : Oracle) :
    BState × List Char × Oracle × List Sent :=
  if cfg.wsBatchMaxBytes < st.wsBatch.length + src.length then
    let (st, o, ta) :=
      if canSendNow then flushWsBroadcast cfg count st true now o else (st, o, [])
    let pendingLen := st.wsBatch.length
    if cfg.wsBatchMaxBytes < pendingLen + src.length then
      let overflow := pendingLen + src.length - cfg.wsBatchMaxBytes
      -- _trimWsBatch(overflow), lines 222-228 writing _wsDropMessage
      let st := match trimWsBatch st.wsBatch overflow with
        | (b1, some k) =>
          { st with wsBatch := b1, wsDropPending := true,
                    wsDropMessage := dropNoticeOf k }
        | (b1, none) => { st with wsBatch := b1 }
      -- lines 322-325: truncate src to its trailing wsBatchMaxBytes bytes
      let src := if cfg.wsBatchMaxBytes < src.length
        then src.drop (src.length - cfg.wsBatchMaxBytes) else src
      -- lines 326-328: final guard
      let st := if cfg.wsBatchMaxBytes < st.wsBatch.length + src.length
        then { st with wsBatch := [] } else st
      (st, src, o, ta)
    else (st, src, o, ta)
  else (st, src, o, [])

/-- The tail of `_queueWsBroadcast` after the immediate-send attempts: the
`wsBatchMaxBytes == 0` special case (lines 304-312), the overflow block,
the final `concat` (line 332, modelled as always succeeding) and the
trailing flush (lines 339-343). -/
def queueWsTail (cfg : WsCfg) (count : Nat) (st : BState) (src : List Char)
    (canSendNow : Bool) (now : Nat) (o : Oracle) : BState × Oracle × List Sent :=
  if cfg.wsBatchMaxBytes = 0 then
    -- lines 304-312
    if st.wsBatch.length = 0 ∧ canSendNow then
      ({ st with lastWsFlushMs := now }, o, [⟨.immediate, src⟩])
    else
      ({ st with wsBatch := src }, o, [])
  else
    let (st, src, o, t1) := queueWsOverflow cfg count st src canSendNow now o
    -- line 332: _wsBatch.concat(src, srcLen)
    let st := { st with wsBatch := st.wsBatch ++ src }
    -- lines 339-343
    let (st, o, t2) := flushWsBroadcast cfg count st canSendNow now o
    (st, o, t1 ++ t2)

/-- A send is within the claimed bound unless it is one of the exception
kinds: `batchSend` entries must fit in `wsBatchMaxBytes`. -/
def SentOk (m : Nat) (e : Sent) : Prop :=
  e.tag = .batchSend → e.payload.length ≤ m

/-- `AsyncWebConsole::_queueWsBroadcast` (lines 269-344). -/
def queueWsBroadcast (cfg : WsCfg) (count : Nat) (st : BState) (data : List Char)
    (now : Nat) (o : Oracle) : BState × Oracle × List Sent :=
  if data.length = 0 then (st, o, [])
  else if count = 0 then (st, o, [])
  else
    let st := if st.lastWsFlushMs = 0 then { st with lastWsFlushMs := now } else st
    let (canSendNow, o) := nextAvail o
    let (st, o, t0, canSendNow) :=
      if canSendNow then
        let (st, o, t) := sendPendingWsDrop st now o
        let (av, o) := nextAvail o
        (st, o, t, av)
      else (st, o, [], false)
    if canSendNow ∧ st.wsBatch.length = 0 then
      ({ st with lastWsFlushMs := now }, o, t0 ++ [⟨.immediate, data⟩])
    else if canSendNow ∧ st.wsBatch.length ≠ 0 then
      -- lines 292-302
      let (st, o, t1) := flushWsBroadcast cfg count st true now o
      let (av1, o) := nextAvail o
      if av1 then
        let (st, o, t2) := sendPendingWsDrop st now o
        let (av2, o) := nextAvail o
        if av2 then
          ({ st with lastWsFlushMs := now }, o, t0 ++ t1 ++ t2 ++ [⟨.immediate, data⟩])
        else
          let (st, o, t3) := queueWsTail cfg count st data canSendNow now o
          (st, o, t0 ++ t1 ++ t2 ++ t3)
      else
        let (st, o, t3) := queueWsTail cfg count st data canSendNow now o
        (st, o, t0 ++ t1 ++ t3)
    else
      let (st, o, t3) := queueWsTail cfg count st data canSendNow now o
      (st, o, t0 ++ t3)

/-- One externally triggered batcher operation: a drained line handed to
`_queueWsBroadcast`, or a `_flushWsBroadcast` call (timeout tick, connect,
shutdown).  Each carries the transport answers observed during the call. -/
inductive BOp where
  | push (data : List Char) (now : Nat) (count : Nat) (o : Oracle)
  | flush (force : Bool) (now : Nat) (count : Nat) (o : Oracle)

def runBOp (cfg : WsCfg) (st : BState) : BOp → BState × List Sent
  | .push data now count o =>
    let (st, _, t) := queueWsBroadcast cfg count st data now o
    (st, t)
  | .flush force now count o =>
    let (st, _, t) := flushWsBroadcast cfg count st force now o
    (st, t)

def runBOps (cfg : WsCfg) (st : BState) : List BOp → BState × List Sent
  | [] => (st, [])
  | op :: rest =>
    let (st1, t1) := runBOp cfg st op
    let (st2, t2) := runBOps cfg st1 rest
    (st2, t1 ++ t2)

/-! ## FileSink rotation: `_rotateIfNeeded` (lines 594-633).

Paths: `FPath.active` stands for the configured `filePath` string and
`FPath.rot i` for `filePath + "." + String(i)` (distinct indices give
distinct strings).  The filesystem collaborator is a finite map from paths
to contents; `_currentFileSize` returns 0 when the file cannot be opened
(lines 580-592), so a missing file has size 0. -/

inductive FPath where
  | active
  | rot (i : Nat)
deriving DecidableEq

abbrev FileSys := FPath → Option (List Char)

def fsExists (fs : FileSys) (p : FPath) : Bool := (fs p).isSome

def fsRemove (fs : FileSys) (p : FPath) : FileSys :=
  fun q => if q = p then none else fs q

def fsRename (fs : FileSys) (src dst : FPath) : FileSys :=
  fun q => if q = dst then fs src else if q = src then none else fs q

/-- `_currentFileSize` (lines 580-592): size of the active file, 0 if it
cannot be opened. -/
def currentFileSize (fs : FileSys) : Nat := ((fs .active).getD []).length

/-- One iteration of the rotation loop (lines 621-628) at index `i`. -/
def rotateStep (fs : FileSys) (i : Nat) : FileSys :=
  if fsExists fs (.rot i) then
    fsRename (if fsExists fs (.rot (i + 1)) then fsRemove fs (.rot (i + 1)) else fs)
      (.rot i) (.rot (i + 1))
  else fs

/-- The loop `for (int i = maxFiles-1; i >= 1; --i)`, entered with
`i = maxFiles - 1` counting down to 1. -/
def rotateLoop (fs : FileSys) : Nat → FileSys
  | 0 => fs
  | i + 1 => rotateLoop (rotateStep fs (i + 1)) i

/-- `AsyncWebConsole::_rotateIfNeeded` (lines 594-633). -/
def rotateIfNeeded (maxFileSize : Nat) (maxFiles : Nat) (fs : FileSys) : FileSys :=
  if currentFileSize fs ≤ maxFileSize then fs
  else
    let fs1 := rotateLoop fs (maxFiles - 1)
    let fs2 := if fsExists fs1 (.rot 1) then fsRemove fs1 (.rot 1) else fs1
    fsRename fs2 .active (.rot 1)

/-- Example filesystem used to witness the rotation theorem: active file of
2 bytes, rotated files `.1`, `.2`, `.3` present. -/
def exRotFs : FileSys := fun p =>
  match p with
  | .active => some "xy".data
  | .rot 1 => some "1".data
  | .rot 2 => some "2".data
  | .rot 3 => some "3".data
  | _ => none

/-! # Theorems -/

/-! ## C2: LogQueue enqueue -/

theorem enqueueRaw_le (ctx : Bool) (q : LogQueue) (d : Option (List Char))
    (h : q.msgs.length ≤ q.cap) :
    (enqueueRaw ctx q d).q.msgs.length ≤ q.cap ∧ (enqueueRaw ctx q d).q.cap = q.cap := by
  cases d with
  | none => simp [enqueueRaw, h]
  | some m =>
    by_cases hlt : q.msgs.length < q.cap <;>
      cases ctx <;> simp [enqueueRaw, xQueueSendModel, hlt] <;> omega

theorem enqueueAll_le (ops : List (Bool × Option (List Char))) :
    ∀ q : LogQueue, q.msgs.length ≤ q.cap →
      (enqueueAll q ops).msgs.length ≤ (enqueueAll q ops).cap ∧
      (enqueueAll q ops).cap = q.cap := by
  induction ops with
  | nil => intro q h; simpa [enqueueAll] using h
  | cons op rest ih =>
    intro q h
    obtain ⟨ctx, dd⟩ := op
    obtain ⟨h1, h2⟩ := enqueueRaw_le ctx q dd h
    have := ih (enqueueRaw ctx q dd).q (by rw [h2]; exact h1)
    simpa [enqueueAll, h2] using this

/-- C2: `_enqueueRaw` never blocks the producer: the model of both the
normal-context path (`xQueueSend(_q, &msg, 0)`, a zero-tick wait) and the
ISR path is a single bounded attempt.  When the queue already holds `cap`
(`queueLen`) messages, the next enqueue returns `false`, frees the message
buffer, and the queue length stays at `cap`; and over any sequence of
enqueues the length never exceeds the capacity. -/
theorem logQueue_enqueue_nonblocking_drop
    (q : LogQueue) (isIsr : Bool) (d : List Char)
    (ops : List (Bool × Option (List Char))) :
    (q.msgs.length = q.cap →
      (enqueueRaw isIsr q (some d)).ok = false ∧
      (enqueueRaw isIsr q (some d)).freed = true ∧
      (enqueueRaw isIsr q (some d)).q.msgs.length = q.cap) ∧
    (q.msgs.length ≤ q.cap →
      (enqueueAll q ops).msgs.length ≤ q.cap ∧ (enqueueAll q ops).cap = q.cap) := by
  constructor
  · intro hfull
    have hnlt : ¬q.msgs.length < q.cap := by omega
    cases isIsr <;> simp [enqueueRaw, xQueueSendModel, hnlt, hfull]
  · intro h
    obtain ⟨h1, h2⟩ := enqueueAll_le ops q h
    rw [h2] at h1
    exact ⟨h1, h2⟩

theorem logQueue_enqueue_nonblocking_drop_witness :
    (enqueueRaw false ⟨[['a']], 1⟩ (some ['b'])).ok = false ∧
    (enqueueRaw false ⟨[['a']], 1⟩ (some ['b'])).freed = true ∧
    (enqueueRaw false ⟨[['a']], 1⟩ (some ['b'])).q.msgs.length = 1 ∧
    (enqueueAll ⟨[['a']], 1⟩ [(false, some ['c'])]).msgs.length ≤ 1 := by
  obtain ⟨hfull, hseq⟩ :=
    logQueue_enqueue_nonblocking_drop ⟨[['a']], 1⟩ false ['b'] [(false, some ['c'])]
  obtain ⟨ha, hb, hc⟩ := hfull (by decide)
  exact ⟨ha, hb, hc, (hseq (by decide)).1⟩

/-! ## C4: severity classification -/

theorem detectScan_take : ∀ (s : List Char) (i : Nat),
    detectScan s i = detectScan (s.take (8 - i)) i := by
  intro s
  induction s with
  | nil => intro i; simp
  | cons c rest ih =>
    intro i
    by_cases h8 : 8 ≤ i
    · have h0 : 8 - i = 0 := by omega
      simp [h0, detectScan, h8]
    · have hs : 8 - i = (8 - (i + 1)) + 1 := by omega
      rw [hs, List.take_succ_cons]
      simp only [detectScan]
      split_ifs <;> first | rfl | exact ih (i + 1)

/-- C4: `_detectEspLogLevel` scans at most the first 8 characters; a line
beginning with `E` (such as `"E (1234) tag: msg"`) classifies as error, a
line beginning with `Z` classifies as unknown (`ESP_LOG_NONE`), which
`_allowSyslog` admits regardless of the configured threshold, and a line
beginning with the ANSI escape character followed by `W` classifies as
warning (the escape byte is skipped transparently). -/
theorem severity_detection_spec :
    (∀ rest : List Char, detectEspLogLevel ('E' :: rest) = .error) ∧
    detectEspLogLevel "E (1234) tag: msg".data = .error ∧
    (∀ rest : List Char, detectEspLogLevel ('Z' :: rest) = .none) ∧
    (∀ (lvl : EspLogLevel) (rest : List Char), allowSyslog lvl ('Z' :: rest) = true) ∧
    (∀ rest : List Char, detectEspLogLevel ('\x1b' :: 'W' :: rest) = .warn) ∧
    (∀ s : List Char, detectEspLogLevel s = detectEspLogLevel (s.take 8)) := by
  refine ⟨?_, ?_, ?_, ?_, ?_, ?_⟩
  · intro rest; simp [detectEspLogLevel, detectScan]
  · simp [detectEspLogLevel, detectScan]
  · intro rest; simp [detectEspLogLevel, detectScan]
  · intro lvl rest; simp [allowSyslog, detectEspLogLevel, detectScan]
  · intro rest; simp [detectEspLogLevel, detectScan]
  · intro s; exact detectScan_take s 0

/-! ## C9: flush with zero subscribers -/

/-- C9: any `_flushWsBroadcast` call (forced or not) made while the
subscriber count is zero clears the whole accumulated batch and performs
no transport send. -/
theorem flush_zero_subscribers_discards (cfg : WsCfg) (st : BState)
    (force : Bool) (now : Nat) (o : Oracle) :
    (flushWsBroadcast cfg 0 st force now o).1.wsBatch = [] ∧
    (flushWsBroadcast cfg 0 st force now o).2.2 = [] := by
  unfold flushWsBroadcast
  by_cases h : st.wsBatch.length = 0
  · simpa [h] using List.length_eq_zero.mp h
  · simp [h]

/-! ## C7: file rotation -/

/-- C7: `_rotateIfNeeded` rotates only when the active file size exceeds
`maxFileSize`; with `maxFiles = 3` and all of the active file, `path.1`,
`path.2`, `path.3` present, rotation moves the active content to `path.1`,
shifts the prior `path.1`/`path.2` to `path.2`/`path.3`, discards the
prior `path.3`, and leaves no active file. -/
theorem rotation_spec (maxSize : Nat) (fs : FileSys) (a b c d : List Char)
    (ha : fs .active = some a) (hsz : maxSize < a.length)
    (h1 : fs (.rot 1) = some b) (h2 : fs (.rot 2) = some c)
    (h3 : fs (.rot 3) = some d) :
    (rotateIfNeeded maxSize 3 fs) (.rot 1) = some a ∧
    (rotateIfNeeded maxSize 3 fs) (.rot 2) = some b ∧
    (rotateIfNeeded maxSize 3 fs) (.rot 3) = some c ∧
    (rotateIfNeeded maxSize 3 fs) .active = none ∧
    (∀ (ms mf : Nat) (g : FileSys), currentFileSize g ≤ ms →
      rotateIfNeeded ms mf g = g) := by
  have hgt : ¬currentFileSize fs ≤ maxSize := by
    simp [currentFileSize, ha]; omega
  refine ⟨?_, ?_, ?_, ?_, ?_⟩
  · simp [rotateIfNeeded, hgt, rotateLoop, rotateStep, fsExists, fsRename, fsRemove,
      ha, h1, h2, h3]
  · simp [rotateIfNeeded, hgt, rotateLoop, rotateStep, fsExists, fsRename, fsRemove,
      ha, h1, h2, h3]
  · simp [rotateIfNeeded, hgt, rotateLoop, rotateStep, fsExists, fsRename, fsRemove,
      ha, h1, h2, h3]
  · simp [rotateIfNeeded, hgt, rotateLoop, rotateStep, fsExists, fsRename, fsRemove,
      ha, h1, h2, h3]
  · intro ms mf g hle; simp [rotateIfNeeded, hle]

theorem rotation_spec_witness :
    (rotateIfNeeded 1 3 exRotFs) (.rot 1) = some "xy".data ∧
    (rotateIfNeeded 1 3 exRotFs) (.rot 2) = some "1".data ∧
    (rotateIfNeeded 1 3 exRotFs) (.rot 3) = some "2".data ∧
    (rotateIfNeeded 1 3 exRotFs) .active = none := by
  obtain ⟨w1, w2, w3, w4, _⟩ :=
    rotation_spec 1 exRotFs "xy".data "1".data "2".data "3".data
      rfl (by decide) rfl rfl rfl
  exact ⟨w1, w2, w3, w4⟩

/-! ## Tokenizer lemmas (C6, C8, C10) -/

theorem tokenizeAllLoop_cons : ∀ (s : List Char) (q : Bool) (cur x : List Char)
    (acc : List (List Char)),
    tokenizeAllLoop s q cur (x :: acc) = x :: tokenizeAllLoop s q cur acc := by
  intro s
  induction s with
  | nil =>
    intro q cur x acc
    by_cases h : cur = [] <;> simp [tokenizeAllLoop, h]
  | cons ch rest ih =>
    intro q cur x acc
    simp only [tokenizeAllLoop]
    split_ifs with h1 h2 h3
    · exact ih _ _ _ _
    · rw [List.cons_append]; exact ih _ _ _ _
    · exact ih _ _ _ _
    · exact ih _ _ _ _

theorem tokenizeAllLoop_append (s : List Char) (q : Bool) (cur : List Char) :
    ∀ acc : List (List Char),
    tokenizeAllLoop s q cur acc = acc ++ tokenizeAllLoop s q cur [] := by
  intro acc
  induction acc with
  | nil => simp
  | cons x tl ih => rw [tokenizeAllLoop_cons, ih, List.cons_append]

theorem tokenizeLoop_take : ∀ (s : List Char) (q : Bool) (cur : List Char)
    (acc : List (List Char)) (k : Nat), acc.length ≤ k →
    tokenizeLoop k s q cur acc
      = acc ++ (tokenizeAllLoop s q cur []).take (k - acc.length) := by
  intro s
  induction s with
  | nil =>
    intro q cur acc k hk
    simp only [tokenizeLoop, tokenizeAllLoop]
    by_cases hc : cur = []
    · simp [hc]
    · by_cases hlt : acc.length < k
      · obtain ⟨m, hm⟩ : ∃ m, k - acc.length = m + 1 := ⟨k - acc.length - 1, by omega⟩
        simp [hc, hlt, hm, List.take_succ_cons]
      · have h0 : k - acc.length = 0 := by omega
        simp [hc, hlt, h0]
  | cons ch rest ih =>
    intro q cur acc k hk
    by_cases h1 : ch = '"'
    · simp only [tokenizeLoop, tokenizeAllLoop, if_pos h1]
      exact ih _ _ _ _ hk
    · by_cases h2 : ¬q = true ∧ (ch = ' ' ∨ ch = '\t')
      · by_cases h3 : cur = []
        · simp only [tokenizeLoop, tokenizeAllLoop, if_neg h1, if_pos h2, h3, ne_eq,
            not_true_eq_false, if_false]
          exact ih _ _ _ _ hk
        · simp only [tokenizeLoop, tokenizeAllLoop, if_neg h1, if_pos h2, ne_eq, h3,
            not_false_eq_true, if_true, List.nil_append]
          by_cases hlt : acc.length < k
          · rw [if_pos hlt, ih q [] (acc ++ [cur]) k (by simp; omega),
              tokenizeAllLoop_append rest q [] [cur]]
            have hlen : (acc ++ [cur]).length = acc.length + 1 := by simp
            rw [hlen]
            obtain ⟨m, hm⟩ : ∃ m, k - acc.length = m + 1 := ⟨k - acc.length - 1, by omega⟩
            have hm2 : k - (acc.length + 1) = m := by omega
            rw [hm, hm2]
            simp [List.take_succ_cons, List.append_assoc]
          · rw [if_neg hlt, ih q [] acc k hk, tokenizeAllLoop_append rest q [] [cur]]
            have h0 : k - acc.length = 0 := by omega
            simp [h0]
      · simp only [tokenizeLoop, tokenizeAllLoop, if_neg h1, if_neg h2]
        exact ih _ _ _ _ hk

theorem tokenize_take (s : List Char) (k : Nat) :
    tokenize s k = (tokenizeAll s).take k := by
  simpa [tokenize, tokenizeAll] using tokenizeLoop_take s false [] [] k (by simp)

theorem tokenizeLoop_no_quote : ∀ (s : List Char) (q : Bool) (cur : List Char)
    (acc : List (List Char)) (k : Nat),
    '"' ∉ cur → (∀ t ∈ acc, '"' ∉ t) →
    ∀ t ∈ tokenizeLoop k s q cur acc, '"' ∉ t := by
  intro s
  induction s with
  | nil =>
    intro q cur acc k hcur hacc t ht
    simp only [tokenizeLoop] at ht
    split_ifs at ht
    · rcases List.mem_append.mp ht with h | h
      · exact hacc t h
      · rw [List.mem_singleton.mp h]; exact hcur
    · exact hacc t ht
  | cons ch rest ih =>
    intro q cur acc k hcur hacc t ht
    by_cases h1 : ch = '"'
    · rw [tokenizeLoop, if_pos h1] at ht
      exact ih _ _ _ _ hcur hacc t ht
    · by_cases h2 : ¬q = true ∧ (ch = ' ' ∨ ch = '\t')
      · by_cases h3 : cur = []
        · rw [tokenizeLoop, if_neg h1, if_pos h2, if_neg (by simp [h3])] at ht
          exact ih _ _ _ _ hcur hacc t ht
        · rw [tokenizeLoop, if_neg h1, if_pos h2, if_pos h3] at ht
          refine ih _ _ _ _ (by simp) ?_ t ht
          intro u hu
          split_ifs at hu
          · rcases List.mem_append.mp hu with h | h
            · exact hacc u h
            · rw [List.mem_singleton.mp h]; exact hcur
          · exact hacc u hu
      · rw [tokenizeLoop, if_neg h1, if_neg h2] at ht
        refine ih _ _ _ _ ?_ hacc t ht
        intro hmem
        rcases List.mem_append.mp hmem with h | h
        · exact hcur h
        · exact h1 (List.mem_singleton.mp h).symm

theorem tokenizeLoop_all_quotes : ∀ (s : List Char) (q : Bool) (k : Nat),
    (∀ c ∈ s, c = '"') → tokenizeLoop k s q [] [] = [] := by
  intro s
  induction s with
  | nil => intro q k _; simp [tokenizeLoop]
  | cons ch rest ih =>
    intro q k hall
    have hch : ch = '"' := hall ch (by simp)
    simp only [tokenizeLoop, hch, if_pos rfl]
    exact ih (!q) k fun c hc => hall c (by simp [hc])

/-! ## C6: quote grouping -/

/-- C6: quote characters toggle the no-split-on-whitespace mode and are
removed from every produced token; `dispatch`-level tokenization of
`echo "a b" c` (after the trim `dispatch` performs) yields exactly
`["echo", "a b", "c"]`; an unbalanced quote consumes to end of input as
one token (`a "b c` yields `["a", "b c"]`). -/
theorem tokenize_quote_grouping :
    (∀ (input : List Char) (maxOut : Nat) (t : List Char),
       t ∈ tokenize input maxOut → '"' ∉ t) ∧
    tokenize (trimString "echo \"a b\" c".data) maxArgs
      = ["echo".data, "a b".data, "c".data] ∧
    tokenize (trimString "a \"b c".data) maxArgs = ["a".data, "b c".data] := by
  refine ⟨?_, by decide, by decide⟩
  intro input maxOut t ht
  exact tokenizeLoop_no_quote input false [] [] maxOut (by simp) (by simp) t ht

theorem tokenize_quote_grouping_witness :
    ("a".data ∈ tokenize "\"a\"".data maxArgs) ∧ '"' ∉ "a".data :=
  ⟨by decide, tokenize_quote_grouping.1 "\"a\"".data maxArgs "a".data (by decide)⟩

/-! ## C8: at most `_maxArgs` = 12 tokens -/

/-- C8: tokenization produces at most `_maxArgs = 12` tokens: the bounded
tokenizer returns exactly the first `maxOut` tokens of the unbounded
tokenization (later tokens are silently discarded), so the `argv` list a
dispatched handler receives (built from the trimmed input with
`_maxArgs`) always has length at most 12. -/
theorem tokenize_max_args (raw : List Char) :
    (tokenize (trimString raw) maxArgs).length ≤ 12 ∧
    tokenize (trimString raw) maxArgs = (tokenizeAll (trimString raw)).take 12 ∧
    (∀ (input : List Char) (k : Nat), tokenize input k = (tokenizeAll input).take k) := by
  refine ⟨?_, tokenize_take _ _, fun input k => tokenize_take input k⟩
  rw [tokenize_take, List.length_take]
  exact le_trans (Nat.min_le_left maxArgs _) (by decide)

/-! ## C10: inputs of quotes and whitespace -/

/-- C10 as stated is false: the input `" "` (quote, space, quote) is
non-empty after trimming and consists only of double quotes and
whitespace, yet `dispatch` tokenizes it to the single token `" "` (the
space is inside quotes) and returns the unknown-command reply, not the
empty string. -/
theorem dispatch_quotes_whitespace_counterexample :
    trimString "\" \"".data ≠ [] ∧
    (∀ c ∈ trimString "\" \"".data, c = '"' ∨ isSpaceChar c) ∧
    dispatch [] "\" \"".data ≠ [] := by decide

/-- C10 amended: for every raw input that is non-empty after whitespace
trimming and consists only of double-quote characters, tokenization yields
zero tokens and `dispatch` returns the empty string (whitespace between
quote pairs instead becomes token content and leads to the
unknown-command reply). -/
theorem dispatch_only_quotes_empty (cmds : List CommandEntry) (raw : List Char)
    (hne : trimString raw ≠ [])
    (hq : ∀ c ∈ trimString raw, c = '"') :
    dispatch cmds raw = [] := by
  have hlen : ¬(trimString raw).length = 0 := by
    simpa [List.length_eq_zero] using hne
  have htok : tokenize (trimString raw) maxArgs = [] :=
    tokenizeLoop_all_quotes (trimString raw) false maxArgs hq
  simp [dispatch, hlen, htok]

theorem dispatch_only_quotes_empty_witness :
    dispatch [] "\"\"".data = [] :=
  dispatch_only_quotes_empty [] "\"\"".data (by decide) (by decide)

/-! ## Broadcast helper lemmas (C3, C5) -/

theorem sendPending_props (st : BState) (now : Nat) (o : Oracle) :
    (sendPendingWsDrop st now o).1.wsBatch = st.wsBatch ∧
    ∀ e ∈ (sendPendingWsDrop st now o).2.2, e.tag = .notice := by
  unfold sendPendingWsDrop nextAvail
  split_ifs with h1
  · simp
  · by_cases h2 : (List.head? o).getD false = true
    · simp [h2]
    · simp [h2]

theorem flush_props (cfg : WsCfg) (count : Nat) (st : BState) (force : Bool)
    (now : Nat) (o : Oracle) :
    ((flushWsBroadcast cfg count st force now o).1.wsBatch = st.wsBatch ∨
      (flushWsBroadcast cfg count st force now o).1.wsBatch = []) ∧
    ∀ e ∈ (flushWsBroadcast cfg count st force now o).2.2,
      e.tag = .notice ∨ (e.tag = .batchSend ∧ e.payload = st.wsBatch) := by
  unfold flushWsBroadcast
  by_cases hb : st.wsBatch.length = 0
  · simp [hb]
  · rw [if_neg hb]
    by_cases hc : count = 0
    · simp [hc]
    · rw [if_neg hc]
      have hbatch :
          (if st.lastWsFlushMs = 0 then { st with lastWsFlushMs := now } else st).wsBatch
            = st.wsBatch := by split <;> rfl
      set st' : BState :=
        if st.lastWsFlushMs = 0 then { st with lastWsFlushMs := now } else st with hst'
      obtain ⟨hP1, hP2⟩ := sendPending_props st' now o
      rcases hsp : sendPendingWsDrop st' now o with ⟨st1, o1, t1⟩
      rw [hsp] at hP1 hP2
      simp only [hsp]
      split_ifs with hsf hav
      · refine ⟨Or.inr rfl, fun e he => ?_⟩
        rcases List.mem_append.mp he with h | h
        · exact Or.inl (hP2 e h)
        · rw [List.mem_singleton.mp h]
          exact Or.inr ⟨rfl, hP1.trans hbatch⟩
      · exact ⟨Or.inl (hP1.trans hbatch), fun e he => Or.inl (hP2 e he)⟩
      · exact ⟨Or.inl (hP1.trans hbatch), fun e he => Or.inl (hP2 e he)⟩

theorem flush_sent_structure (cfg : WsCfg) (count : Nat) (st : BState) (force : Bool)
    (now : Nat) (o : Oracle) :
    ∃ pre post, (flushWsBroadcast cfg count st force now o).2.2 = pre ++ post ∧
      (∀ e ∈ pre, e.tag = .notice) ∧ ∀ e ∈ post, e.tag = .batchSend := by
  unfold flushWsBroadcast
  by_cases hb : st.wsBatch.length = 0
  · exact ⟨[], [], by simp [hb], by simp, by simp⟩
  · rw [if_neg hb]
    by_cases hc : count = 0
    · exact ⟨[], [], by simp [hc], by simp, by simp⟩
    · rw [if_neg hc]
      set st' : BState :=
        if st.lastWsFlushMs = 0 then { st with lastWsFlushMs := now } else st with hst'
      obtain ⟨_, hP2⟩ := sendPending_props st' now o
      rcases hsp : sendPendingWsDrop st' now o with ⟨st1, o1, t1⟩
      rw [hsp] at hP2
      simp only [hsp]
      split_ifs with hsf hav
      · exact ⟨t1, [⟨.batchSend, st1.wsBatch⟩], by simp, hP2, by simp⟩
      · exact ⟨t1, [], by simp, hP2, by simp⟩
      · exact ⟨t1, [], by simp, hP2, by simp⟩

/-! ## Trim loop lemmas (C3) -/

theorem findNl_some : ∀ (l : List Char) (i : Nat), findNl l = some i →
    i < l.length ∧ l[i]? = some '\n' := by
  intro l
  induction l with
  | nil => intro i h; simp [findNl] at h
  | cons c rest ih =>
    intro i h
    by_cases hc : c = '\n'
    · rw [findNl, if_pos hc] at h
      cases h
      simp [hc]
    · rw [findNl, if_neg hc] at h
      rcases Option.map_eq_some'.mp h with ⟨j, hj, hij⟩
      obtain ⟨hjl, hjn⟩ := ih j hj
      subst hij
      exact ⟨by simpa using hjl, by simpa using hjn⟩

theorem trimLoopGo_some : ∀ (fuel : Nat) (b : List Char) (remaining removeUpTo k : Nat),
    remaining ≤ fuel → trimLoopGo b fuel remaining removeUpTo = some k →
    (k = removeUpTo ∧ (remaining = 0 ∨ b.length ≤ removeUpTo)) ∨
    (removeUpTo < k ∧ k ≤ b.length ∧ b[k - 1]? = some '\n' ∧
      (removeUpTo + remaining ≤ k ∨ k = b.length)) := by
  intro fuel
  induction fuel with
  | zero =>
    intro b remaining removeUpTo k hf h
    have hr : remaining = 0 := Nat.le_zero.mp hf
    rw [trimLoopGo, if_pos (Or.inl hr)] at h
    cases h
    exact Or.inl ⟨rfl, Or.inl hr⟩
  | succ fuel ih =>
    intro b remaining removeUpTo k hf h
    rw [trimLoopGo] at h
    by_cases hstop : remaining = 0 ∨ b.length ≤ removeUpTo
    · rw [if_pos hstop] at h
      cases h
      exact Or.inl ⟨rfl, hstop⟩
    · rw [if_neg hstop] at h
      push_neg at hstop
      obtain ⟨hr0, hlt⟩ := hstop
      rcases hfind : findNl (b.drop removeUpTo) with _ | rel
      · rw [hfind] at h
        simp at h
      · rw [hfind] at h
        dsimp only at h
        obtain ⟨hrel, hreln⟩ := findNl_some _ rel hfind
        rw [List.length_drop] at hrel
        have hnl : b[removeUpTo + rel]? = some '\n' := by
          rw [List.getElem?_drop] at hreln
          exact hreln
        by_cases hbr : remaining ≤ rel + 1
        · rw [if_pos hbr] at h
          cases h
          refine Or.inr ⟨by omega, by omega, ?_, Or.inl (by omega)⟩
          have he : removeUpTo + rel + 1 - 1 = removeUpTo + rel := by omega
          rw [he]; exact hnl
        · rw [if_neg hbr] at h
          rcases ih b (remaining - (rel + 1)) (removeUpTo + rel + 1) k (by omega) h with
            ⟨hk, hside⟩ | ⟨h1', h2', h3', h4'⟩
          · rcases hside with hz | hl
            · omega
            · refine Or.inr ⟨by omega, by omega, ?_, Or.inr (by omega)⟩
              have he : k - 1 = removeUpTo + rel := by omega
              rw [he]; exact hnl
          · exact Or.inr ⟨by omega, h2', h3', by omega⟩

/-! ## C3: overflow trimming -/

/-- C3 as stated is false on two points, shown at concrete inputs.
With batch `"abcde\nfg"` and a requested drop of 2 bytes there is no
newline within the requested range, yet the batch is not discarded: the
trim extends to the newline at index 5, keeping `"fg"`.  With batch
`"abc"` and drop 2, the trim discards the whole batch but sets no pending
drop notice (`_trimWsBatch` returns at line 214 before the notice code). -/
theorem trim_notice_counterexample :
    trimWsBatch "abcde\nfg".data 2 = ("fg".data, some 6) ∧
    trimWsBatch "abc".data 2 = ([], none) := by decide

/-- C3 amended: `_trimWsBatch` removes only whole newline-terminated lines
from the front of the batch: whenever it reports `some k` dropped bytes,
index `k` ends right after a newline, covers at least the requested
amount, and the new batch is exactly the old one with its first `k` bytes
removed.  A drop request of at least the whole batch length discards the
batch with no notice; whenever no notice is reported the batch is either
untouched or entirely discarded (a trim that finds no newline discards
everything); and a flush emits any pending drop notice before the batched
text (its send trace is notice sends followed by batch sends). -/
theorem trim_whole_lines (b : List Char) (d : Nat) :
    (b.length ≤ d ∧ 0 < d ∧ b ≠ [] → trimWsBatch b d = ([], none)) ∧
    (∀ k, (trimWsBatch b d).2 = some k →
      0 < k ∧ k ≤ b.length ∧ b[k - 1]? = some '\n' ∧ d ≤ k ∧
        (trimWsBatch b d).1 = b.drop k) ∧
    ((trimWsBatch b d).2 = none → (trimWsBatch b d).1 = b ∨ (trimWsBatch b d).1 = []) ∧
    (∀ (cfg : WsCfg) (count : Nat) (st : BState) (force : Bool) (now : Nat) (o : Oracle),
      ∃ pre post, (flushWsBroadcast cfg count st force now o).2.2 = pre ++ post ∧
        (∀ e ∈ pre, e.tag = .notice) ∧ ∀ e ∈ post, e.tag = .batchSend) := by
  refine ⟨?_, ?_, ?_, flush_sent_structure⟩
  · rintro ⟨hle, hd, hb⟩
    have h1 : ¬(b.length = 0 ∨ d = 0) := by
      push_neg
      exact ⟨by simpa [List.length_eq_zero] using hb, by omega⟩
    rw [trimWsBatch, if_neg h1, if_pos hle]
  · intro k hk
    by_cases h1 : b.length = 0 ∨ d = 0
    · rw [trimWsBatch, if_pos h1] at hk
      simp at hk
    · by_cases h2 : b.length ≤ d
      · rw [trimWsBatch, if_neg h1, if_pos h2] at hk
        simp at hk
      · rcases htl : trimLoop b d 0 with _ | r
        · rw [trimWsBatch, if_neg h1, if_neg h2, htl] at hk
          simp at hk
        · rw [trimWsBatch, if_neg h1, if_neg h2, htl] at hk
          dsimp only at hk
          have hrk : r = k := by simpa using hk
          subst hrk
          push_neg at h1 h2
          rcases trimLoopGo_some d b d 0 r le_rfl (by simpa [trimLoop] using htl) with
            ⟨hk0, hside⟩ | ⟨hpos, hlen, hnl, hbound⟩
          · rcases hside with hz | hl
            · omega
            · omega
          · have hdk : d ≤ r := by
              rcases hbound with hb1 | hb2
              · omega
              · omega
            refine ⟨by omega, hlen, hnl, hdk, ?_⟩
            rw [trimWsBatch, if_neg (by push_neg; omega), if_neg (by omega), htl]
            dsimp only
            split_ifs with hfull
            · exact (List.drop_eq_nil_iff.mpr (by omega)).symm
            · rfl
  · intro hnone
    by_cases h1 : b.length = 0 ∨ d = 0
    · rw [trimWsBatch, if_pos h1]
      exact Or.inl rfl
    · by_cases h2 : b.length ≤ d
      · rw [trimWsBatch, if_neg h1, if_pos h2]
        exact Or.inr rfl
      · rcases htl : trimLoop b d 0 with _ | r
        · rw [trimWsBatch, if_neg h1, if_neg h2, htl]
          exact Or.inr rfl
        · rw [trimWsBatch, if_neg h1, if_neg h2, htl] at hnone
          simp at hnone

theorem trim_whole_lines_witness :
    (trimWsBatch "x\nyz".data 1).2 = some 2 ∧
    0 < 2 ∧ 2 ≤ "x\nyz".data.length ∧ "x\nyz".data[2 - 1]? = some '\n' ∧ 1 ≤ 2 ∧
    (trimWsBatch "x\nyz".data 1).1 = "x\nyz".data.drop 2 := by
  have h := (trim_whole_lines "x\nyz".data 1).2.1 2 (by decide)
  exact ⟨by decide, h⟩

/-! ## Batching bound lemmas (C5) -/

theorem overflow_ok (cfg : WsCfg) (count : Nat) (st : BState) (src : List Char)
    (canSendNow : Bool) (now : Nat) (o : Oracle)
    (h : st.wsBatch.length ≤ cfg.wsBatchMaxBytes) :
    (queueWsOverflow cfg count st src canSendNow now o).1.wsBatch.length
        + (queueWsOverflow cfg count st src canSendNow now o).2.1.length
      ≤ cfg.wsBatchMaxBytes ∧
    ∀ e ∈ (queueWsOverflow cfg count st src canSendNow now o).2.2.2,
      SentOk cfg.wsBatchMaxBytes e := by
  unfold queueWsOverflow
  by_cases hA : cfg.wsBatchMaxBytes < st.wsBatch.length + src.length
  · rw [if_pos hA]
    rcases hf : (if canSendNow then flushWsBroadcast cfg count st true now o
        else (st, o, [])) with ⟨st1, o1, ta⟩
    have hfp : (st1.wsBatch = st.wsBatch ∨ st1.wsBatch = []) ∧
        ∀ e ∈ ta, e.tag = .notice ∨ (e.tag = .batchSend ∧ e.payload = st.wsBatch) := by
      by_cases hcs : canSendNow
      · rw [if_pos hcs] at hf
        have hp := flush_props cfg count st true now o
        rw [hf] at hp
        exact hp
      · rw [if_neg hcs] at hf
        cases hf
        exact ⟨Or.inl rfl, by simp⟩
    have hta : ∀ e ∈ ta, SentOk cfg.wsBatchMaxBytes e := by
      intro e he htag
      rcases hfp.2 e he with hn | ⟨_, hp⟩
      · rw [hn] at htag; cases htag
      · rw [hp]; exact h
    dsimp only
    by_cases hB : cfg.wsBatchMaxBytes < st1.wsBatch.length + src.length
    · rw [if_pos hB]
      rcases htr : trimWsBatch st1.wsBatch
          (st1.wsBatch.length + src.length - cfg.wsBatchMaxBytes) with ⟨b1, nk⟩
      rcases nk with _ | k <;>
      · dsimp only
        by_cases hs : cfg.wsBatchMaxBytes < src.length
        · rw [if_pos hs]
          have hl2 : (List.drop (src.length - cfg.wsBatchMaxBytes) src).length
              = cfg.wsBatchMaxBytes := by
            rw [List.length_drop]; omega
          split_ifs with hg
          · exact ⟨by simp [hl2], hta⟩
          · push_neg at hg
            exact ⟨hg, hta⟩
        · rw [if_neg hs]
          push_neg at hs
          split_ifs with hg
          · exact ⟨by simpa using hs, hta⟩
          · push_neg at hg
            exact ⟨hg, hta⟩
    · rw [if_neg hB]
      push_neg at hB
      exact ⟨hB, hta⟩
  · rw [if_neg hA]
    push_neg at hA
    exact ⟨hA, by simp⟩

theorem tail_ok (cfg : WsCfg) (count : Nat) (st : BState) (src : List Char)
    (canSendNow : Bool) (now : Nat) (o : Oracle)
    (hM : cfg.wsBatchMaxBytes ≠ 0)
    (h : st.wsBatch.length ≤ cfg.wsBatchMaxBytes) :
    (queueWsTail cfg count st src canSendNow now o).1.wsBatch.length
      ≤ cfg.wsBatchMaxBytes ∧
    ∀ e ∈ (queueWsTail cfg count st src canSendNow now o).2.2,
      SentOk cfg.wsBatchMaxBytes e := by
  unfold queueWsTail
  rw [if_neg hM]
  obtain ⟨hlen, ht1⟩ := overflow_ok cfg count st src canSendNow now o h
  rcases hov : queueWsOverflow cfg count st src canSendNow now o with ⟨st2, src2, o2, t1⟩
  rw [hov] at hlen ht1
  dsimp only at hlen ht1 ⊢
  have hcc : ({ st2 with wsBatch := st2.wsBatch ++ src2 } : BState).wsBatch.length
      ≤ cfg.wsBatchMaxBytes := by
    simpa using hlen
  have hp := flush_props cfg count { st2 with wsBatch := st2.wsBatch ++ src2 }
    canSendNow now o2
  rcases hfl : flushWsBroadcast cfg count { st2 with wsBatch := st2.wsBatch ++ src2 }
      canSendNow now o2 with ⟨st5, o5, t2⟩
  rw [hfl] at hp
  constructor
  · rcases hp.1 with h5 | h5
    · dsimp only at h5
      rw [h5]
      exact hcc
    · rw [h5]
      simp
  · intro e he
    rcases List.mem_append.mp he with hm | hm
    · exact ht1 e hm
    · intro htag
      rcases hp.2 e hm with hn | ⟨_, hpay⟩
      · rw [hn] at htag; cases htag
      · rw [hpay]; exact hcc

theorem queue_ok (cfg : WsCfg) (count : Nat) (st : BState) (data : List Char)
    (now : Nat) (o : Oracle) (hM : cfg.wsBatchMaxBytes ≠ 0)
    (h : st.wsBatch.length ≤ cfg.wsBatchMaxBytes) :
    (queueWsBroadcast cfg count st data now o).1.wsBatch.length ≤ cfg.wsBatchMaxBytes ∧
    ∀ e ∈ (queueWsBroadcast cfg count st data now o).2.2,
      SentOk cfg.wsBatchMaxBytes e := by
  unfold queueWsBroadcast
  by_cases hd : data.length = 0
  · rw [if_pos hd]
    exact ⟨h, by simp⟩
  · rw [if_neg hd]
    by_cases hc : count = 0
    · rw [if_pos hc]
      exact ⟨h, by simp⟩
    · rw [if_neg hc]
      have hbatch0 :
          (if st.lastWsFlushMs = 0 then { st with lastWsFlushMs := now } else st).wsBatch
            = st.wsBatch := by split <;> rfl
      set stA : BState :=
        if st.lastWsFlushMs = 0 then { st with lastWsFlushMs := now } else st with hstA
      have hA : stA.wsBatch.length ≤ cfg.wsBatchMaxBytes := by
        rw [hbatch0]; exact h
      dsimp only [nextAvail]
      by_cases hcs : o.headD false = true
      · rw [if_pos hcs]
        have hspP := sendPending_props stA now o.tail
        rcases hsp : sendPendingWsDrop stA now o.tail with ⟨stp, op, tp⟩
        rw [hsp] at hspP
        obtain ⟨hpb, hpt⟩ := hspP
        have hpB : stp.wsBatch.length ≤ cfg.wsBatchMaxBytes := by
          rw [hpb]; exact hA
        have hptOk : ∀ e ∈ tp, SentOk cfg.wsBatchMaxBytes e := by
          intro e he htag
          rw [hpt e he] at htag
          cases htag
        dsimp only
        by_cases h1 : op.headD false = true ∧ stp.wsBatch.length = 0
        · rw [if_pos h1]
          refine ⟨hpB, fun e he => ?_⟩
          rcases List.mem_append.mp he with hm | hm
          · exact hptOk e hm
          · rw [List.mem_singleton.mp hm]
            intro htag
            cases htag
        · rw [if_neg h1]
          by_cases h2 : op.headD false = true ∧ stp.wsBatch.length ≠ 0
          · rw [if_pos h2]
            have hfP := flush_props cfg count stp true now op.tail
            rcases hfl : flushWsBroadcast cfg count stp true now op.tail with ⟨stf, og, t1⟩
            rw [hfl] at hfP
            have hfB : stf.wsBatch.length ≤ cfg.wsBatchMaxBytes := by
              rcases hfP.1 with hx | hx
              · rw [hx]; exact hpB
              · rw [hx]; simp
            have ht1Ok : ∀ e ∈ t1, SentOk cfg.wsBatchMaxBytes e := by
              intro e he htag
              rcases hfP.2 e he with hn | ⟨_, hp⟩
              · rw [hn] at htag; cases htag
              · rw [hp]; exact hpB
            dsimp only
            by_cases hv1 : og.headD false = true
            · rw [if_pos hv1]
              have hsp2P := sendPending_props stf now og.tail
              rcases hsp2 : sendPendingWsDrop stf now og.tail with ⟨stq, oq, t2⟩
              rw [hsp2] at hsp2P
              obtain ⟨hqb, hqt⟩ := hsp2P
              have hqB : stq.wsBatch.length ≤ cfg.wsBatchMaxBytes := by
                rw [hqb]; exact hfB
              have ht2Ok : ∀ e ∈ t2, SentOk cfg.wsBatchMaxBytes e := by
                intro e he htag
                rw [hqt e he] at htag
                cases htag
              dsimp only
              by_cases hv2 : oq.headD false = true
              · rw [if_pos hv2]
                refine ⟨hqB, fun e he => ?_⟩
                simp only [List.mem_append, List.mem_singleton] at he
                rcases he with ((hm | hm) | hm) | hm
                · exact hptOk e hm
                · exact ht1Ok e hm
                · exact ht2Ok e hm
                · rw [hm]; intro htag; cases htag
              · rw [if_neg hv2]
                obtain ⟨htB, htOk⟩ :=
                  tail_ok cfg count stq data (op.headD false) now oq.tail hM hqB
                rcases htl : queueWsTail cfg count stq data (op.headD false) now oq.tail
                  with ⟨stt, ot, t3⟩
                rw [htl] at htB htOk
                refine ⟨htB, fun e he => ?_⟩
                simp only [List.mem_append] at he
                rcases he with ((hm | hm) | hm) | hm
                · exact hptOk e hm
                · exact ht1Ok e hm
                · exact ht2Ok e hm
                · exact htOk e hm
            · rw [if_neg hv1]
              obtain ⟨htB, htOk⟩ :=
                tail_ok cfg count stf data (op.headD false) now og.tail hM hfB
              rcases htl : queueWsTail cfg count stf data (op.headD false) now og.tail
                with ⟨stt, ot, t3⟩
              rw [htl] at htB htOk
              refine ⟨htB, fun e he => ?_⟩
              simp only [List.mem_append] at he
              rcases he with (hm | hm) | hm
              · exact hptOk e hm
              · exact ht1Ok e hm
              · exact htOk e hm
          · rw [if_neg h2]
            obtain ⟨htB, htOk⟩ :=
              tail_ok cfg count stp data (op.headD false) now op.tail hM hpB
            rcases htl : queueWsTail cfg count stp data (op.headD false) now op.tail
              with ⟨stt, ot, t3⟩
            rw [htl] at htB htOk
            refine ⟨htB, fun e he => ?_⟩
            simp only [List.mem_append] at he
            rcases he with hm | hm
            · exact hptOk e hm
            · exact htOk e hm
      · rw [if_neg hcs]
        dsimp only
        rw [if_neg (by simp), if_neg (by simp)]
        obtain ⟨htB, htOk⟩ := tail_ok cfg count stA data false now o.tail hM hA
        rcases htl : queueWsTail cfg count stA data false now o.tail with ⟨stt, ot, t3⟩
        rw [htl] at htB htOk
        refine ⟨htB, fun e he => ?_⟩
        simp only [List.nil_append] at he
        exact htOk e he

theorem runBOp_ok (cfg : WsCfg) (st : BState) (op : BOp)
    (hM : cfg.wsBatchMaxBytes ≠ 0)
    (h : st.wsBatch.length ≤ cfg.wsBatchMaxBytes) :
    (runBOp cfg st op).1.wsBatch.length ≤ cfg.wsBatchMaxBytes ∧
    ∀ e ∈ (runBOp cfg st op).2, SentOk cfg.wsBatchMaxBytes e := by
  cases op with
  | push data now count o =>
    unfold runBOp
    dsimp only
    obtain ⟨h1, h2⟩ := queue_ok cfg count st data now o hM h
    rcases hq : queueWsBroadcast cfg count st data now o with ⟨st1, o1, t1⟩
    rw [hq] at h1 h2
    exact ⟨h1, h2⟩
  | flush force now count o =>
    unfold runBOp
    dsimp only
    have hp := flush_props cfg count st force now o
    rcases hf : flushWsBroadcast cfg count st force now o with ⟨st1, o1, t1⟩
    rw [hf] at hp
    refine ⟨?_, fun e he htag => ?_⟩
    · rcases hp.1 with hx | hx
      · rw [hx]; exact h
      · rw [hx]; simp
    · rcases hp.2 e he with hn | ⟨_, hpay⟩
      · rw [hn] at htag; cases htag
      · rw [hpay]; exact h

theorem runBOps_ok (cfg : WsCfg) (hM : cfg.wsBatchMaxBytes ≠ 0) :
    ∀ (ops : List BOp) (st : BState), st.wsBatch.length ≤ cfg.wsBatchMaxBytes →
      (runBOps cfg st ops).1.wsBatch.length ≤ cfg.wsBatchMaxBytes ∧
      ∀ e ∈ (runBOps cfg st ops).2, SentOk cfg.wsBatchMaxBytes e := by
  intro ops
  induction ops with
  | nil => intro st h; exact ⟨h, by simp [runBOps]⟩
  | cons op rest ih =>
    intro st h
    obtain ⟨h1, h2⟩ := runBOp_ok cfg st op hM h
    rcases hop : runBOp cfg st op with ⟨st1, t1⟩
    rw [hop] at h1 h2
    obtain ⟨h3, h4⟩ := ih st1 h1
    rcases hrest : runBOps cfg st1 rest with ⟨st2, t2⟩
    rw [hrest] at h3 h4
    refine ⟨by simpa [runBOps, hop, hrest] using h3, fun e he => ?_⟩
    simp only [runBOps, hop, hrest, List.mem_append] at he
    rcases he with hm | hm
    · exact h2 e hm
    · exact h4 e hm

/-! ## C5: bounded transport sends -/

/-- C5 as stated is false: the overflow drop notice is also handed to
`textAll` and is not an immediate-send chunk, yet its fixed text (about 53
bytes) can exceed a small `wsBatchMaxBytes`.  With `wsBatchMaxBytes = 4`,
pushing `"ab\n"` then `"cd\n"` with no write capacity forces a trim whose
pending notice is later sent by a forced flush: the trace contains a
53-byte non-immediate send while `wsBatchMaxBytes = 4`. -/
theorem broadcast_oversized_notice_counterexample :
    ∃ e ∈ (runBOps ⟨4, 100⟩ initBState
        [.push "ab\n".data 1 1 [false], .push "cd\n".data 2 1 [false],
         .flush true 3 1 [true, true]]).2,
      e.tag ≠ .immediate ∧ e.tag ≠ .batchSend ∧ 4 < e.payload.length := by decide

/-- C5 amended: over every sequence of `_queueWsBroadcast` and
`_flushWsBroadcast` calls with `wsBatchMaxBytes > 0`, every batched text
handed to `textAll` (the flush path, line 264) is at most `wsBatchMaxBytes`
bytes; the exceptions are the immediate-send chunks that bypass batching
(lines 287/297) and the overflow drop notice (line 350), which have no
such bound.  In particular the accumulated batch itself never exceeds
`wsBatchMaxBytes` after any call. -/
theorem broadcast_bounded_sends (cfg : WsCfg) (hM : 0 < cfg.wsBatchMaxBytes)
    (ops : List BOp) :
    (runBOps cfg initBState ops).1.wsBatch.length ≤ cfg.wsBatchMaxBytes ∧
    ∀ e ∈ (runBOps cfg initBState ops).2, e.tag = .batchSend →
      e.payload.length ≤ cfg.wsBatchMaxBytes :=
  runBOps_ok cfg (by omega) ops initBState (by simp [initBState])

theorem broadcast_bounded_sends_witness :
    (0 : Nat) < 4 ∧
    (Sent.mk .batchSend "cd\n".data ∈ (runBOps ⟨4, 100⟩ initBState
        [.push "ab\n".data 1 1 [false], .push "cd\n".data 2 1 [false],
         .flush true 3 1 [true, true]]).2) ∧
    (Sent.mk .batchSend "cd\n".data).payload.length ≤ 4 := by
  refine ⟨by decide, by decide, ?_⟩
  exact (broadcast_bounded_sends ⟨4, 100⟩ (by decide)
      [.push "ab\n".data 1 1 [false], .push "cd\n".data 2 1 [false],
       .flush true 3 1 [true, true]]).2
    (Sent.mk .batchSend "cd\n".data) (by decide) rfl

/-! ## RingBacklog lemmas (C1) -/

theorem mod_add_inj (c h a b : Nat) (hc : 0 < c) (ha : a < c) (hb : b < c)
    (heq : (h + a) % c = (h + b) % c) : a = b := by
  have hr : h % c < c := Nat.mod_lt _ hc
  have f : ∀ x, x < c →
      (h + x) % c = if h % c + x < c then h % c + x else h % c + x - c := by
    intro x hx
    rw [← Nat.mod_add_mod]
    by_cases hlt : h % c + x < c
    · rw [if_pos hlt, Nat.mod_eq_of_lt hlt]
    · rw [if_neg hlt, Nat.mod_eq_sub_mod (by omega), Nat.mod_eq_of_lt (by omega)]
  rw [f a ha, f b hb] at heq
  split_ifs at heq <;> omega

theorem snapshot_length (st : Ring) : (snapshot st).length = st.used := by
  simp [snapshot]

theorem ringAppend_buf (st : Ring) (s : List Char) (hc : 0 < st.cap)
    (hu : st.used + s.length ≤ st.cap) (i : Nat)
    (hi : i < st.used + s.length) :
    (ringAppend st s).buf ((st.head + i) % st.cap)
      = if i < st.used then st.buf ((st.head + i) % st.cap)
        else s.getD (i - st.used) default := by
  have hsl : s.length ≤ st.cap := by omega
  set c := st.cap with hC
  clear_value c
  set t := (st.head + st.used) % c with hT
  have ht : t < c := hT ▸ Nat.mod_lt _ hc
  have key : ∀ j, (t + j) % c = (st.head + (st.used + j)) % c := by
    intro j
    rw [hT, Nat.mod_add_mod, Nat.add_assoc]
  clear_value t
  set f := min s.length (c - t) with hF
  have hfle : f ≤ c - t := Nat.min_le_right _ _
  have hfsl2 : f ≤ s.length := Nat.min_le_left _ _
  have hfc : f < s.length → f = c - t := by
    intro hflt
    rcases Nat.le_total s.length (c - t) with hle | hle
    · rw [hF, Nat.min_eq_left hle] at hflt
      omega
    · rw [hF, Nat.min_eq_right hle]
  clear_value f
  have hmods : ∀ i' : Nat, (st.head + i') % c < c := fun i' => Nat.mod_lt _ hc
  -- the two written index regions avoid the old window positions
  have regionA : ∀ i', i' < st.used →
      ¬(t ≤ (st.head + i') % c ∧ (st.head + i') % c < t + f) := by
    rintro i' hi' ⟨h1, h2⟩
    have hj : (st.head + i') % c - t < f := by omega
    have hmm : (st.head + i') % c = (st.head + (st.used + ((st.head + i') % c - t))) % c := by
      rw [← key]
      have h3 : t + ((st.head + i') % c - t) = (st.head + i') % c := by omega
      rw [h3]
      exact (Nat.mod_eq_of_lt (hmods i')).symm
    have heq := mod_add_inj c st.head i' (st.used + ((st.head + i') % c - t)) hc
      (by omega) (by omega) hmm
    omega
  have regionB : f < s.length → ∀ i', i' < st.used →
      ¬((st.head + i') % c < s.length - f) := by
    intro hflt i' hi' hlt
    have hfc2 := hfc hflt
    have hmm : (st.head + i') % c
        = (st.head + (st.used + (f + (st.head + i') % c))) % c := by
      rw [← key]
      have h1 : t + (f + (st.head + i') % c) = c + (st.head + i') % c := by omega
      rw [h1, Nat.add_mod_left, Nat.mod_eq_of_lt (hmods i')]
    have heq := mod_add_inj c st.head i' (st.used + (f + (st.head + i') % c)) hc
      (by omega) (by omega) hmm
    omega
  show (ringAppend st s).buf ((st.head + i) % c) = _
  unfold ringAppend
  dsimp only
  rw [← hC, ← hT, ← hF]
  by_cases hiu : i < st.used
  · rw [if_pos hiu]
    have hA := regionA i hiu
    split_ifs with hfsl
    · dsimp only
      rw [if_neg (regionB hfsl i hiu), if_neg hA]
    · dsimp only
      rw [if_neg hA]
  · rw [if_neg hiu]
    push_neg at hiu
    have hj : i - st.used < s.length := by omega
    have hpj : (st.head + i) % c = (t + (i - st.used)) % c := by
      rw [key]
      congr 1
      omega
    by_cases hjf : i - st.used < f
    · have hpv : (st.head + i) % c = t + (i - st.used) := by
        rw [hpj]
        exact Nat.mod_eq_of_lt (by omega)
      split_ifs with hfsl
      · have hfc2 := hfc hfsl
        dsimp only
        rw [if_neg (by rw [hpv]; omega), if_pos (by rw [hpv]; exact ⟨by omega, by omega⟩)]
        rw [hpv]
        congr 1
        omega
      · dsimp only
        rw [if_pos (by rw [hpv]; exact ⟨by omega, by omega⟩)]
        rw [hpv]
        congr 1
        omega
    · push_neg at hjf
      have hfsl : f < s.length := by omega
      have hfc2 := hfc hfsl
      have hpv : (st.head + i) % c = i - st.used - f := by
        rw [hpj, Nat.mod_eq_sub_mod (by omega), Nat.mod_eq_of_lt (by omega)]
        omega
      rw [if_pos hfsl]
      rw [if_pos (by rw [hpv]; omega)]
      rw [hpv]
      congr 1
      omega

theorem ringAppend_snapshot (st : Ring) (s : List Char) (hc : 0 < st.cap)
    (hu : st.used + s.length ≤ st.cap) :
    snapshot (ringAppend st s) = snapshot st ++ s := by
  apply List.ext_getElem
  · have hused : (ringAppend st s).used = st.used + s.length := rfl
    simp [snapshot_length, hused]
  intro i h1 h2
  have hi : i < st.used + s.length := by
    simpa [snapshot, ringAppend] using h1
  conv_lhs => simp only [snapshot, List.getElem_map, List.getElem_range]
  have hproj : (ringAppend st s).buf (((ringAppend st s).head + i) % (ringAppend st s).cap)
      = (ringAppend st s).buf ((st.head + i) % st.cap) := rfl
  rw [hproj, ringAppend_buf st s hc hu i hi]
  by_cases hiu : i < st.used
  · rw [if_pos hiu]
    have hlen : i < (snapshot st).length := by rw [snapshot_length]; exact hiu
    rw [List.getElem_append_left hlen]
    simp [snapshot]
  · rw [if_neg hiu]
    push_neg at hiu
    have hlen : (snapshot st).length ≤ i := by rw [snapshot_length]; exact hiu
    rw [List.getElem_append_right hlen]
    simp only [snapshot_length]
    have hidx : i - st.used < s.length := by omega
    exact List.getD_eq_getElem s default hidx

theorem evict_snapshot (st : Ring) (n : Nat) (_hn : n ≤ st.used) :
    snapshot { st with head := (st.head + n) % st.cap, used := st.used - n }
      = (snapshot st).drop n := by
  apply List.ext_getElem
  · simp [snapshot]
  intro i h1 h2
  simp only [snapshot, List.getElem_map, List.getElem_range, List.getElem_drop]
  rw [Nat.mod_add_mod, Nat.add_assoc]

theorem push_full (st : Ring) (s : List Char) (hc : 0 < st.cap)
    (hcs : st.cap ≤ s.length) :
    (pushLineToBuffer st s).head = 0 ∧ (pushLineToBuffer st s).used = st.cap ∧
    (pushLineToBuffer st s).cap = st.cap ∧
    snapshot (pushLineToBuffer st s) = s.drop (s.length - st.cap) := by
  have hcz : ¬st.cap = 0 := by omega
  unfold pushLineToBuffer
  rw [if_neg hcz]
  dsimp only
  rw [if_pos hcs]
  refine ⟨rfl, rfl, rfl, ?_⟩
  apply List.ext_getElem
  · simp [snapshot]
    omega
  intro i h1 h2
  have hi : i < st.cap := by simpa [snapshot] using h1
  simp only [snapshot, List.getElem_map, List.getElem_range, List.getElem_drop]
  simp only [Nat.zero_add]
  rw [Nat.mod_eq_of_lt hi, if_pos hi]
  exact List.getD_eq_getElem s default (by omega)

theorem push_step (st : Ring) (s : List Char) (hc : 0 < st.cap)
    (hh : st.head < st.cap) (_hu : st.used ≤ st.cap) :
    (pushLineToBuffer st s).cap = st.cap ∧
    (pushLineToBuffer st s).head < st.cap ∧
    (pushLineToBuffer st s).used ≤ st.cap ∧
    ((∃ n, snapshot (pushLineToBuffer st s) = (snapshot st).drop n ++ s) ∨
      snapshot (pushLineToBuffer st s) = s.drop (s.length - st.cap)) := by
  by_cases hcs : st.cap ≤ s.length
  · obtain ⟨e1, e2, e3, e4⟩ := push_full st s hc hcs
    exact ⟨e3, by omega, by omega, Or.inr e4⟩
  · push_neg at hcs
    have hcz : ¬st.cap = 0 := by omega
    have hne : ¬st.cap ≤ s.length := by omega
    have hstep : pushLineToBuffer st s
        = ringAppend (if st.cap < st.used + s.length then
            { st with
              head := (st.head + (if st.used < st.used + s.length - st.cap
                then st.used else st.used + s.length - st.cap)) % st.cap,
              used := st.used - (if st.used < st.used + s.length - st.cap
                then st.used else st.used + s.length - st.cap) }
          else st) s := by
      unfold pushLineToBuffer
      rw [if_neg hcz]
      dsimp only
      rw [if_neg hne]
    by_cases hev : st.cap < st.used + s.length
    · have hneed : ¬st.used < st.used + s.length - st.cap := by omega
      rw [hstep, if_pos hev]
      simp only [hneed, if_false]
      set n := st.used + s.length - st.cap with hN
      set st1 : Ring := { st with head := (st.head + n) % st.cap, used := st.used - n }
        with hst1
      have h1c : st1.cap = st.cap := rfl
      have h1u : st1.used = st.used - n := rfl
      have hfit : st1.used + s.length ≤ st1.cap := by
        rw [h1u, h1c]; omega
      have hsnap : snapshot (ringAppend st1 s) = snapshot st1 ++ s :=
        ringAppend_snapshot st1 s (by rw [h1c]; omega) hfit
      have hev2 : snapshot st1 = (snapshot st).drop n := evict_snapshot st n (by omega)
      refine ⟨h1c, ?_, ?_, Or.inl ⟨n, by rw [hsnap, hev2]⟩⟩
      · show ((st.head + n) % st.cap) < st.cap
        exact Nat.mod_lt _ hc
      · show st1.used + s.length ≤ st.cap
        rw [h1u]; omega
    · rw [hstep, if_neg hev]
      push_neg at hev
      have hsnap : snapshot (ringAppend st s) = snapshot st ++ s :=
        ringAppend_snapshot st s hc hev
      refine ⟨rfl, hh, ?_, Or.inl ⟨0, by rw [hsnap, List.drop_zero]⟩⟩
      show st.used + s.length ≤ st.cap
      exact hev

theorem suffix_append_both {X A s : List Char} (h : X <:+ A) : X ++ s <:+ A ++ s := by
  obtain ⟨t, ht⟩ := h
  exact ⟨t, by rw [← List.append_assoc, ht]⟩

theorem pushAll_inv : ∀ (pushes : List (List Char)) (st : Ring) (A : List Char),
    0 < st.cap → st.head < st.cap → st.used ≤ st.cap → snapshot st <:+ A →
    (pushAll st pushes).cap = st.cap ∧ (pushAll st pushes).head < st.cap ∧
    (pushAll st pushes).used ≤ st.cap ∧
    snapshot (pushAll st pushes) <:+ A ++ pushes.flatten := by
  intro pushes
  induction pushes with
  | nil =>
    intro st A hc hh hu hs
    exact ⟨rfl, hh, hu, by simpa using hs⟩
  | cons s rest ih =>
    intro st A hc hh hu hs
    obtain ⟨e1, e2, e3, e4⟩ := push_step st s hc hh hu
    have hsuf : snapshot (pushLineToBuffer st s) <:+ A ++ s := by
      rcases e4 with ⟨n, hn⟩ | hfull
      · rw [hn]
        exact suffix_append_both (((snapshot st).drop_suffix n).trans hs)
      · rw [hfull]
        exact ((s.drop_suffix _).trans (List.suffix_append A s))
    have hrest := ih (pushLineToBuffer st s) (A ++ s) (by rw [e1]; exact hc)
      (by rw [e1]; exact e2) (by rw [e1]; exact e3) hsuf
    rw [e1] at hrest
    refine ⟨?_, ?_, ?_, ?_⟩
    · show (pushAll (pushLineToBuffer st s) rest).cap = st.cap
      exact hrest.1
    · exact hrest.2.1
    · exact hrest.2.2.1
    · have := hrest.2.2.2
      simpa [List.append_assoc] using this

/-! ## C1: RingBacklog invariant and snapshot -/

/-- C1: for every sequence of `pushLineToBuffer` calls on a backlog of
capacity `C > 0` (with arbitrary initial buffer bytes), `used` never
exceeds `C`, and the window read by `sendBacklog` (bytes at
`head .. head+used-1 mod C`, oldest first) is a suffix of the
concatenation of all pushed strings, of length at most `C`.  After pushing
a single string of length at least `C` into the fresh backlog, the window
is exactly that string's trailing `C` bytes, with `used = C` and
`head = 0`. -/
theorem ring_backlog_spec (C : Nat) (hC : 0 < C) (buf0 : Nat → Char)
    (pushes : List (List Char)) :
    (pushAll (initRing C buf0) pushes).used ≤ C ∧
    (snapshot (pushAll (initRing C buf0) pushes)).length ≤ C ∧
    snapshot (pushAll (initRing C buf0) pushes) <:+ pushes.flatten ∧
    ∀ s : List Char, C ≤ s.length →
      (pushLineToBuffer (initRing C buf0) s).used = C ∧
      (pushLineToBuffer (initRing C buf0) s).head = 0 ∧
      snapshot (pushLineToBuffer (initRing C buf0) s) = s.drop (s.length - C) := by
  obtain ⟨e1, e2, e3, e4⟩ := pushAll_inv pushes (initRing C buf0) []
    hC hC (by simp [initRing]) (by simp [snapshot, initRing])
  refine ⟨e3, ?_, by simpa using e4, fun s hs => ?_⟩
  · rw [snapshot_length]
    exact e3
  · obtain ⟨f1, f2, _, f4⟩ := push_full (initRing C buf0) s hC hs
    exact ⟨f2, f1, f4⟩

theorem ring_backlog_spec_witness :
    (pushAll (initRing 4 (fun _ => 'x')) ["ab".data, "cd".data, "ef".data]).used ≤ 4 ∧
    snapshot (pushAll (initRing 4 (fun _ => 'x')) ["ab".data, "cd".data, "ef".data])
      <:+ ["ab".data, "cd".data, "ef".data].flatten ∧
    (pushLineToBuffer (initRing 4 (fun _ => 'x')) "abcdefg".data).used = 4 ∧
    (pushLineToBuffer (initRing 4 (fun _ => 'x')) "abcdefg".data).head = 0 ∧
    snapshot (pushLineToBuffer (initRing 4 (fun _ => 'x')) "abcdefg".data)
      = "abcdefg".data.drop 3 := by
  obtain ⟨w1, _, w3, wfull⟩ :=
    ring_backlog_spec 4 (by decide) (fun _ => 'x') ["ab".data, "cd".data, "ef".data]
  obtain ⟨v1, v2, v3⟩ := wfull "abcdefg".data (by decide)
  exact ⟨w1, w3, v1, v2, v3⟩

end AsyncWebConsole
